import Mathlib

/-!
Verification of the recommendation core of a Steam game recommender
(`function.py`): co-occurrence graph construction, genre tree construction,
popularity aggregation, and the three recommendation algorithms.

The Python source is shallowly embedded: pandas DataFrames become lists of
records, networkx graphs become an explicit node list plus an association
list of undirected edges keyed by the sorted endpoint pair, anytree nodes
become a rose tree, Python dicts become association lists, Python floats
(ratings) become rationals, and the global random source used by
`random.sample` becomes an explicit stream of numbers threaded through the
sampling routine.
-/

namespace SteamRec

/-- Python list slicing `l[:n]`: for non-negative `n` this is the first `n`
elements; for negative `n` it drops the last `|n|` elements (clamped at the
empty list). -/
def pySlice (l : List α) (n : Int) : List α :=
  if 0 ≤ n then l.take n.toNat else l.take (l.length - (-n).toNat)

/-- Python `set(...)` materialized back into a list: distinct elements, kept
in first-occurrence order (the actual CPython iteration order of a set is
hash-dependent; all uses in the source are order-insensitive). -/
def pyDedup [DecidableEq α] (l : List α) : List α :=
  l.foldl (fun acc x => if x ∈ acc then acc else acc ++ [x]) []

/-- Stable insertion of `x` into a list sorted descending by `key`: `x` goes
after every element whose key is ≥ its own, so equal keys keep their original
relative order, exactly like Python's stable `sorted(..., reverse=True)`. -/
def insertDescBy (key : α → β) [LinearOrder β] (x : α) : List α → List α
  | [] => [x]
  | y :: ys => if key y ≤ key x then x :: y :: ys else y :: insertDescBy key x ys

/-- Stable sort, descending by `key`: models Python
`sorted(l, key=..., reverse=True)` and `l.sort(key=..., reverse=True)`. -/
def sortDescBy (key : α → β) [LinearOrder β] (l : List α) : List α :=
  l.foldr (insertDescBy key) []

/-- Stable insertion of `x` into a list sorted ascending by `key`: `x` goes
after every element whose key is ≤ its own. -/
def insertAscBy (key : α → β) [LinearOrder β] (x : α) : List α → List α
  | [] => [x]
  | y :: ys => if key x ≤ key y then x :: y :: ys else y :: insertAscBy key x ys

/-- First-match association-list lookup: the embedding of a Python dict read
(`d[k]`, `d.get(k)`, `k in d`). Keys are unique in every dict the source
builds, so first-match agrees with the dict. -/
def alistLookup [DecidableEq α] : List (α × β) → α → Option β
  | [], _ => none
  | (k, v) :: rest, a => if k = a then some v else alistLookup rest a

/-- Stable sort, ascending by `key`. Used to model pandas machinery: both
`groupby` (which sorts group keys ascending) and the ascending argsort that
`sort_values` computes internally. -/
def sortAscBy (key : α → β) [LinearOrder β] (l : List α) : List α :=
  l.foldr (insertAscBy key) []

/-! ## The co-occurrence graph (networkx.Graph)

A networkx `Graph` is undirected with at most one edge per unordered pair of
nodes. We embed it as the list of nodes in insertion order plus an
association list from the sorted endpoint pair to the integer weight, in
edge-insertion order. `add_node`, `has_node`, `has_edge`, `add_edge` and the
`G[a][b]['weight'] += 1` update are the only operations the source uses. -/

/-- Canonical key for the undirected edge {a, b}: endpoints sorted. -/
def edgeKey (a b : Nat) : Nat × Nat :=
  if a ≤ b then (a, b) else (b, a)

structure Graph where
  nodes : List Nat
  edges : List ((Nat × Nat) × Nat)
deriving Repr, DecidableEq

def Graph.empty : Graph := ⟨[], []⟩

def Graph.hasNode (G : Graph) (a : Nat) : Bool := a ∈ G.nodes

/-- `G.add_node(a)` (a no-op when the node exists; new nodes appended). -/
def Graph.addNode (G : Graph) (a : Nat) : Graph :=
  if G.hasNode a then G else ⟨G.nodes ++ [a], G.edges⟩

/-- Increment the weight stored under key `k`, creating it with weight 1 at
the end of the list when absent: the combined effect of the source's
`has_edge` test followed by `add_edge(..., weight=1)` or `+= 1`. -/
def incrEdge : List ((Nat × Nat) × Nat) → (Nat × Nat) →
    List ((Nat × Nat) × Nat)
  | [], k => [(k, 1)]
  | (k0, w) :: rest, k =>
      if k0 = k then (k0, w + 1) :: rest else (k0, w) :: incrEdge rest k

/-- Lines 233-242 of the source, for one unordered pair (gameA, gameB):
add both endpoints as nodes if absent, then create the edge with weight 1 or
increment its weight. -/
def Graph.addPair (G : Graph) (a b : Nat) : Graph :=
  let G1 := (G.addNode a).addNode b
  ⟨G1.nodes, incrEdge G1.edges (edgeKey a b)⟩

/-- Edge weight lookup, 0 when the edge is absent. -/
def Graph.weight (G : Graph) (a b : Nat) : Nat :=
  (alistLookup G.edges (edgeKey a b)).getD 0

/-- `G.has_edge(a, b)`. -/
def Graph.hasEdge (G : Graph) (a b : Nat) : Bool :=
  (alistLookup G.edges (edgeKey a b)).isSome

/-- All unordered pairs `(l[i], l[j])` with `i < j`, in the order the
source's double loop (lines 228-231) visits them. -/
def pairsOf : List Nat → List (Nat × Nat)
  | [] => []
  | x :: xs => xs.map (fun y => (x, y)) ++ pairsOf xs

/-- Lines 222-242: process one user's item list. `set(item_list)` is modelled
by `pyDedup`; users with fewer than 2 distinct items are skipped; otherwise
every unordered pair of distinct items bumps its edge. -/
def processUser (G : Graph) (item_list : List Nat) : Graph :=
  let unique_items := pyDedup item_list
  if unique_items.length < 2 then G
  else (pairsOf unique_items).foldl (fun g p => g.addPair p.1 p.2) G

/-- `build_game_graph` (lines 197-245). The input is the result of
`df_user_items.groupby('user_id')['item_id'].apply(list)`: one entry per
distinct user id, carrying that user's item ids in row order. -/
def build_game_graph (owners : List (Nat × List Nat)) : Graph :=
  owners.foldl (fun g u => processUser g u.2) Graph.empty

/-! ## Basic lemmas about the graph embedding -/

theorem edgeKey_eq_iff (a b c d : Nat) :
    edgeKey a b = edgeKey c d ↔ (a = c ∧ b = d) ∨ (a = d ∧ b = c) := by
  unfold edgeKey
  split <;> split <;> simp only [Prod.mk.injEq] <;> omega

theorem edgeKey_comm (a b : Nat) : edgeKey a b = edgeKey b a := by
  unfold edgeKey
  split <;> split <;> simp only [Prod.mk.injEq] <;> omega

theorem lookup_incrEdge (es : List ((Nat × Nat) × Nat))
    (k k9 : Nat × Nat) :
    alistLookup (incrEdge es k) k9 =
      if k9 = k then some (((alistLookup es k).getD 0) + 1)
      else alistLookup es k9 := by
  induction es with
  | nil =>
      by_cases h : k9 = k
      · subst h; simp [incrEdge, alistLookup]
      · have hs : ¬k = k9 := fun hh => h hh.symm
        simp [incrEdge, alistLookup, h, hs]
  | cons e rest ih =>
      obtain ⟨k0, w⟩ := e
      by_cases h0 : k0 = k
      · subst h0
        by_cases h9 : k0 = k9
        · subst h9; simp [incrEdge, alistLookup]
        · have h9s : ¬k9 = k0 := fun hh => h9 hh.symm
          simp [incrEdge, alistLookup, h9, h9s]
      · by_cases h9 : k0 = k9
        · subst h9
          simp [incrEdge, alistLookup, h0]
        · simp [incrEdge, alistLookup, h0, h9, ih]

theorem edges_addNode (G : Graph) (a : Nat) : (G.addNode a).edges = G.edges := by
  simp only [Graph.addNode]
  split <;> rfl

theorem nodes_addPair (G : Graph) (a b : Nat) :
    (G.addPair a b).nodes = ((G.addNode a).addNode b).nodes := rfl

theorem edges_addPair (G : Graph) (a b : Nat) :
    (G.addPair a b).edges = incrEdge G.edges (edgeKey a b) := by
  simp [Graph.addPair, edges_addNode]

theorem weight_addPair (G : Graph) (a b c d : Nat) :
    (G.addPair a b).weight c d =
      G.weight c d + (if edgeKey c d = edgeKey a b then 1 else 0) := by
  simp only [Graph.weight, edges_addPair, lookup_incrEdge]
  split <;> simp_all

theorem hasEdge_addPair (G : Graph) (a b c d : Nat) :
    (G.addPair a b).hasEdge c d =
      (G.hasEdge c d || decide (edgeKey c d = edgeKey a b)) := by
  simp only [Graph.hasEdge, edges_addPair, lookup_incrEdge]
  split <;> simp_all

theorem mem_nodes_addNode (G : Graph) (a x : Nat) :
    x ∈ (G.addNode a).nodes ↔ x ∈ G.nodes ∨ x = a := by
  unfold Graph.addNode Graph.hasNode
  by_cases h : a ∈ G.nodes
  · simp only [h, decide_True, if_true]
    constructor
    · exact Or.inl
    · rintro (hx | rfl) <;> assumption
  · simp [h]

theorem mem_nodes_addPair (G : Graph) (a b x : Nat) :
    x ∈ (G.addPair a b).nodes ↔ x ∈ G.nodes ∨ x = a ∨ x = b := by
  rw [nodes_addPair]
  have h1 := mem_nodes_addNode (G.addNode a) b x
  have h2 := mem_nodes_addNode G a x
  rw [h1, h2]
  tauto

/-! ## Lemmas about pyDedup -/

theorem mem_pyDedup_aux [DecidableEq α] (l acc : List α) (x : α) :
    x ∈ l.foldl (fun acc y => if y ∈ acc then acc else acc ++ [y]) acc ↔
      x ∈ acc ∨ x ∈ l := by
  induction l generalizing acc with
  | nil => simp
  | cons a t ih =>
      simp only [List.foldl_cons]
      by_cases h : a ∈ acc
      · rw [if_pos h, ih]
        constructor
        · rintro (hx | hx)
          · exact Or.inl hx
          · exact Or.inr (List.mem_cons_of_mem _ hx)
        · rintro (hx | hx)
          · exact Or.inl hx
          · rcases List.mem_cons.mp hx with rfl | hx2
            · exact Or.inl h
            · exact Or.inr hx2
      · rw [if_neg h, ih]
        simp only [List.mem_append, List.mem_cons, List.mem_singleton]
        tauto

theorem mem_pyDedup [DecidableEq α] (l : List α) (x : α) :
    x ∈ pyDedup l ↔ x ∈ l := by
  unfold pyDedup
  rw [mem_pyDedup_aux]
  simp

theorem pyDedup_nodup_aux [DecidableEq α] (l acc : List α) (hacc : acc.Nodup) :
    (l.foldl (fun acc y => if y ∈ acc then acc else acc ++ [y]) acc).Nodup := by
  induction l generalizing acc with
  | nil => simpa
  | cons a t ih =>
      simp only [List.foldl_cons]
      by_cases h : a ∈ acc
      · rw [if_pos h]
        exact ih _ hacc
      · rw [if_neg h]
        refine ih _ ?_
        simp [List.nodup_append, hacc, h]

theorem pyDedup_nodup [DecidableEq α] (l : List α) : (pyDedup l).Nodup :=
  pyDedup_nodup_aux l [] (by simp)

/-- Any list containing two distinct elements has length at least 2. -/
theorem two_le_length_of_mem_ne {l : List α} {c d : α}
    (hc : c ∈ l) (hd : d ∈ l) (hcd : c ≠ d) : 2 ≤ l.length := by
  match l with
  | [] => simp at hc
  | [a] =>
      simp at hc hd
      exact absurd (hc.trans hd.symm) hcd
  | a :: b :: t => simp [Nat.succ_le_succ, Nat.le_add_left]

/-! ## Counting co-occurrences over the pair loop -/

theorem countP_eq_singleton_of_nodup (xs : List Nat) (hxs : xs.Nodup) (d : Nat) :
    xs.countP (fun y => decide (y = d)) = if d ∈ xs then 1 else 0 := by
  induction xs with
  | nil => simp
  | cons a l ih =>
      rcases List.nodup_cons.mp hxs with ⟨ha, hl⟩
      by_cases h : a = d
      · subst h
        have hz : l.countP (fun y => decide (y = a)) = 0 := by
          rw [List.countP_eq_zero]
          intro y hy
          simp only [decide_eq_true_eq]
          rintro rfl
          exact ha hy
        simp [List.countP_cons, hz, ha]
      · have hda : ¬d = a := fun hh => h hh.symm
        simp [List.countP_cons, h, ih hl, hda]

theorem countP_pairs_head (xs : List Nat) (hxs : xs.Nodup) (x c d : Nat)
    (hx : x ∉ xs) :
    (xs.map (fun y => (x, y))).countP
        (fun p => decide (edgeKey c d = edgeKey p.1 p.2)) =
      if (c = x ∧ d ∈ xs) ∨ (d = x ∧ c ∈ xs) then 1 else 0 := by
  rw [List.countP_map]
  by_cases hcx : c = x
  · by_cases hdx : d = x
    · have hz : xs.countP
          ((fun p => decide (edgeKey c d = edgeKey p.1 p.2)) ∘ fun y => (x, y)) = 0 := by
        rw [List.countP_eq_zero]
        intro y hy
        simp only [Function.comp_apply, decide_eq_true_eq, edgeKey_eq_iff]
        rintro (⟨h1, h2⟩ | ⟨h1, h2⟩)
        · rw [← h2, hdx] at hy
          exact hx hy
        · rw [← h1, hcx] at hy
          exact hx hy
      rw [hz]
      simp [hcx, hdx, hx]
    · have he : ∀ y ∈ xs,
          ((((fun p => decide (edgeKey c d = edgeKey p.1 p.2)) ∘ fun y => (x, y)) y) = true) ↔
            (decide (y = d) = true) := by
        intro y hy
        simp only [Function.comp_apply, decide_eq_true_eq]
        rw [edgeKey_eq_iff]
        constructor
        · rintro (⟨h1, h2⟩ | ⟨h3, h4⟩)
          · exact h2.symm
          · exact absurd h4 hdx
        · rintro rfl
          exact Or.inl ⟨hcx, rfl⟩
      rw [List.countP_congr he, countP_eq_singleton_of_nodup xs hxs d]
      simp [hcx, hdx]
  · by_cases hdx : d = x
    · have he : ∀ y ∈ xs,
          ((((fun p => decide (edgeKey c d = edgeKey p.1 p.2)) ∘ fun y => (x, y)) y) = true) ↔
            (decide (y = c) = true) := by
        intro y hy
        simp only [Function.comp_apply, decide_eq_true_eq]
        rw [edgeKey_eq_iff]
        constructor
        · rintro (⟨h1, h2⟩ | ⟨h3, h4⟩)
          · exact absurd h1 hcx
          · exact h3.symm
        · rintro rfl
          exact Or.inr ⟨rfl, hdx⟩
      rw [List.countP_congr he, countP_eq_singleton_of_nodup xs hxs c]
      simp [hcx, hdx]
    · have hz : xs.countP
          ((fun p => decide (edgeKey c d = edgeKey p.1 p.2)) ∘ fun y => (x, y)) = 0 := by
        rw [List.countP_eq_zero]
        intro y hy
        simp only [Function.comp_apply, decide_eq_true_eq, edgeKey_eq_iff]
        rintro (⟨h1, h2⟩ | ⟨h1, h2⟩)
        · exact hcx h1
        · exact hdx h2
      rw [hz]
      simp [hcx, hdx]


theorem countP_pairsOf (u : List Nat) (hu : u.Nodup) (c d : Nat) :
    (pairsOf u).countP (fun p => decide (edgeKey c d = edgeKey p.1 p.2)) =
      if c ∈ u ∧ d ∈ u ∧ c ≠ d then 1 else 0 := by
  induction u with
  | nil => simp [pairsOf]
  | cons x xs ih =>
      rcases List.nodup_cons.mp hu with ⟨hx, hxs⟩
      rw [pairsOf, List.countP_append, countP_pairs_head xs hxs x c d hx, ih hxs]
      by_cases hcx : c = x <;> by_cases hdx : d = x <;>
        by_cases hcxs : c ∈ xs <;> by_cases hdxs : d ∈ xs <;>
        by_cases hcd : c = d <;>
        simp_all [List.mem_cons]

/-! ## Closed forms for the built graph -/

theorem weight_foldl_addPair (ps : List (Nat × Nat)) (G : Graph) (c d : Nat) :
    (ps.foldl (fun g p => g.addPair p.1 p.2) G).weight c d =
      G.weight c d +
        ps.countP (fun p => decide (edgeKey c d = edgeKey p.1 p.2)) := by
  induction ps generalizing G with
  | nil => simp
  | cons p rest ih =>
      rw [List.foldl_cons, ih, weight_addPair, List.countP_cons]
      by_cases h : edgeKey c d = edgeKey p.1 p.2 <;> simp [h] <;> omega

theorem hasEdge_foldl_addPair (ps : List (Nat × Nat)) (G : Graph) (c d : Nat) :
    ((ps.foldl (fun g p => g.addPair p.1 p.2) G).hasEdge c d = true) ↔
      (G.hasEdge c d = true ∨
        0 < ps.countP (fun p => decide (edgeKey c d = edgeKey p.1 p.2))) := by
  induction ps generalizing G with
  | nil => simp
  | cons p rest ih =>
      rw [List.foldl_cons, ih, List.countP_cons]
      rw [show ((G.addPair p.1 p.2).hasEdge c d = true) ↔
            (G.hasEdge c d = true ∨ edgeKey c d = edgeKey p.1 p.2) by
          rw [hasEdge_addPair]; simp]
      by_cases h : edgeKey c d = edgeKey p.1 p.2 <;> simp [h] <;> tauto

theorem mem_nodes_foldl_addPair (ps : List (Nat × Nat)) (G : Graph) (x : Nat) :
    x ∈ (ps.foldl (fun g p => g.addPair p.1 p.2) G).nodes ↔
      x ∈ G.nodes ∨ ∃ p ∈ ps, x = p.1 ∨ x = p.2 := by
  induction ps generalizing G with
  | nil => simp
  | cons p rest ih =>
      rw [List.foldl_cons, ih]
      rw [mem_nodes_addPair]
      simp only [List.mem_cons]
      constructor
      · rintro ((hg | h1 | h2) | ⟨q, hq, hx⟩)
        · exact Or.inl hg
        · exact Or.inr ⟨p, Or.inl rfl, Or.inl h1⟩
        · exact Or.inr ⟨p, Or.inl rfl, Or.inr h2⟩
        · exact Or.inr ⟨q, Or.inr hq, hx⟩
      · rintro (hg | ⟨q, (rfl | hq), hx⟩)
        · exact Or.inl (Or.inl hg)
        · exact Or.inl (Or.inr hx)
        · exact Or.inr ⟨q, hq, hx⟩

/-- Every element of a list of length at least 2 occurs in some generated
pair (as first or second component). -/
theorem exists_pair_of_mem (u : List Nat) (hu : 2 ≤ u.length) (x : Nat)
    (hx : x ∈ u) : ∃ p ∈ pairsOf u, x = p.1 ∨ x = p.2 := by
  match u, hu with
  | a :: b :: t, _ =>
      rcases List.mem_cons.mp hx with rfl | hx2
      · exact ⟨(x, b), by simp [pairsOf], Or.inl rfl⟩
      · rcases List.mem_cons.mp hx2 with rfl | hx3
        · exact ⟨(a, x), by simp [pairsOf], Or.inr rfl⟩
        · exact ⟨(a, x), by simp [pairsOf, hx3], Or.inr rfl⟩

theorem mem_of_mem_pairsOf (u : List Nat) (p : Nat × Nat)
    (hp : p ∈ pairsOf u) : p.1 ∈ u ∧ p.2 ∈ u := by
  induction u with
  | nil => simp [pairsOf] at hp
  | cons a t ih =>
      rw [pairsOf, List.mem_append] at hp
      rcases hp with hp | hp
      · rcases List.mem_map.mp hp with ⟨y, hy, rfl⟩
        exact ⟨List.mem_cons_self a t, List.mem_cons_of_mem _ hy⟩
      · rcases ih hp with ⟨h1, h2⟩
        exact ⟨List.mem_cons_of_mem _ h1, List.mem_cons_of_mem _ h2⟩

theorem weight_processUser (G : Graph) (items : List Nat) (c d : Nat) :
    (processUser G items).weight c d =
      G.weight c d + (if c ∈ items ∧ d ∈ items ∧ c ≠ d then 1 else 0) := by
  unfold processUser
  by_cases h : (pyDedup items).length < 2
  · rw [if_pos h]
    have hz : ¬(c ∈ items ∧ d ∈ items ∧ c ≠ d) := by
      rintro ⟨hc, hd, hcd⟩
      have := two_le_length_of_mem_ne ((mem_pyDedup items c).mpr hc)
        ((mem_pyDedup items d).mpr hd) hcd
      omega
    simp [hz]
  · rw [if_neg h, weight_foldl_addPair,
      countP_pairsOf (pyDedup items) (pyDedup_nodup items) c d]
    simp only [mem_pyDedup]

theorem hasEdge_processUser (G : Graph) (items : List Nat) (c d : Nat) :
    ((processUser G items).hasEdge c d = true) ↔
      (G.hasEdge c d = true ∨ (c ∈ items ∧ d ∈ items ∧ c ≠ d)) := by
  unfold processUser
  by_cases h : (pyDedup items).length < 2
  · rw [if_pos h]
    have hz : ¬(c ∈ items ∧ d ∈ items ∧ c ≠ d) := by
      rintro ⟨hc, hd, hcd⟩
      have := two_le_length_of_mem_ne ((mem_pyDedup items c).mpr hc)
        ((mem_pyDedup items d).mpr hd) hcd
      omega
    tauto
  · rw [if_neg h, hasEdge_foldl_addPair,
      countP_pairsOf (pyDedup items) (pyDedup_nodup items) c d]
    simp only [mem_pyDedup]
    by_cases hcd : c ∈ items ∧ d ∈ items ∧ c ≠ d <;> simp [hcd]

theorem mem_nodes_processUser (G : Graph) (items : List Nat) (x : Nat) :
    x ∈ (processUser G items).nodes ↔
      x ∈ G.nodes ∨ (x ∈ items ∧ 2 ≤ (pyDedup items).length) := by
  unfold processUser
  by_cases h : (pyDedup items).length < 2
  · rw [if_pos h]
    constructor
    · exact Or.inl
    · rintro (hg | ⟨-, h2⟩)
      · exact hg
      · omega
  · rw [if_neg h, mem_nodes_foldl_addPair]
    constructor
    · rintro (hg | ⟨p, hp, hx⟩)
      · exact Or.inl hg
      · rcases mem_of_mem_pairsOf _ p hp with ⟨h1, h2⟩
        refine Or.inr ⟨?_, by omega⟩
        rcases hx with rfl | rfl
        · exact (mem_pyDedup items p.1).mp h1
        · exact (mem_pyDedup items p.2).mp h2
    · rintro (hg | ⟨hxm, h2⟩)
      · exact Or.inl hg
      · exact Or.inr (exists_pair_of_mem _ (by omega) x ((mem_pyDedup items x).mpr hxm))

theorem weight_build_aux (owners : List (Nat × List Nat)) (G : Graph)
    (a b : Nat) :
    (owners.foldl (fun g u => processUser g u.2) G).weight a b =
      G.weight a b +
        owners.countP (fun u => decide (a ∈ u.2 ∧ b ∈ u.2 ∧ a ≠ b)) := by
  induction owners generalizing G with
  | nil => simp
  | cons u rest ih =>
      rw [List.foldl_cons, ih, weight_processUser, List.countP_cons]
      by_cases h : a ∈ u.2 ∧ b ∈ u.2 ∧ a ≠ b <;> simp [h] <;> omega

theorem hasEdge_build_aux (owners : List (Nat × List Nat)) (G : Graph)
    (a b : Nat) :
    ((owners.foldl (fun g u => processUser g u.2) G).hasEdge a b = true) ↔
      (G.hasEdge a b = true ∨ ∃ u ∈ owners, a ∈ u.2 ∧ b ∈ u.2 ∧ a ≠ b) := by
  induction owners generalizing G with
  | nil => simp
  | cons u rest ih =>
      rw [List.foldl_cons, ih, hasEdge_processUser]
      simp only [List.mem_cons]
      constructor
      · rintro ((hg | hu) | ⟨v, hv, hx⟩)
        · exact Or.inl hg
        · exact Or.inr ⟨u, Or.inl rfl, hu⟩
        · exact Or.inr ⟨v, Or.inr hv, hx⟩
      · rintro (hg | ⟨v, (rfl | hv), hx⟩)
        · exact Or.inl (Or.inl hg)
        · exact Or.inl (Or.inr hx)
        · exact Or.inr ⟨v, hv, hx⟩

theorem mem_nodes_build_aux (owners : List (Nat × List Nat)) (G : Graph)
    (x : Nat) :
    x ∈ (owners.foldl (fun g u => processUser g u.2) G).nodes ↔
      x ∈ G.nodes ∨ ∃ u ∈ owners, x ∈ u.2 ∧ 2 ≤ (pyDedup u.2).length := by
  induction owners generalizing G with
  | nil => simp
  | cons u rest ih =>
      rw [List.foldl_cons, ih, mem_nodes_processUser]
      simp only [List.mem_cons]
      constructor
      · rintro ((hg | hu) | ⟨v, hv, hx⟩)
        · exact Or.inl hg
        · exact Or.inr ⟨u, Or.inl rfl, hu⟩
        · exact Or.inr ⟨v, Or.inr hv, hx⟩
      · rintro (hg | ⟨v, (rfl | hv), hx⟩)
        · exact Or.inl (Or.inl hg)
        · exact Or.inl (Or.inr hx)
        · exact Or.inr ⟨v, hv, hx⟩

theorem weight_build_game_graph (owners : List (Nat × List Nat)) (a b : Nat) :
    (build_game_graph owners).weight a b =
      owners.countP (fun u => decide (a ∈ u.2 ∧ b ∈ u.2 ∧ a ≠ b)) := by
  unfold build_game_graph
  rw [weight_build_aux]
  simp [Graph.weight, Graph.empty, alistLookup]

theorem hasEdge_build_game_graph (owners : List (Nat × List Nat)) (a b : Nat) :
    ((build_game_graph owners).hasEdge a b = true) ↔
      ∃ u ∈ owners, a ∈ u.2 ∧ b ∈ u.2 ∧ a ≠ b := by
  unfold build_game_graph
  rw [hasEdge_build_aux]
  simp [Graph.hasEdge, Graph.empty, alistLookup]

theorem mem_nodes_build_game_graph (owners : List (Nat × List Nat)) (x : Nat) :
    x ∈ (build_game_graph owners).nodes ↔
      ∃ u ∈ owners, x ∈ u.2 ∧ 2 ≤ (pyDedup u.2).length := by
  unfold build_game_graph
  rw [mem_nodes_build_aux]
  simp [Graph.empty]

theorem hasEdge_symm_build (G : Graph) (a b : Nat) :
    G.hasEdge a b = G.hasEdge b a := by
  unfold Graph.hasEdge
  rw [edgeKey_comm]

theorem weight_symm_build (G : Graph) (a b : Nat) :
    G.weight a b = G.weight b a := by
  unfold Graph.weight
  rw [edgeKey_comm]

/-! ## Claim C1 -/

/-- C1: in the graph built by `build_game_graph`, an edge (A, B) exists iff
A ≠ B and some user's deduplicated item set contains both A and B; for
distinct A, B the weight equals the number of distinct users owning both;
the weight is at least 1 whenever the edge exists; there are no self-edges;
and the graph is undirected, with edge (A, B) present iff edge (B, A) is
present carrying the identical weight. -/
theorem claim_C1_build_game_graph_cooccurrence
    (owners : List (Nat × List Nat)) (hnd : (owners.map Prod.fst).Nodup)
    (a b : Nat) :
    ((build_game_graph owners).hasEdge a b = true ↔
      a ≠ b ∧ ∃ u ∈ owners, a ∈ pyDedup u.2 ∧ b ∈ pyDedup u.2) ∧
    (a ≠ b →
      (build_game_graph owners).weight a b =
        ((owners.filter fun u => decide (a ∈ u.2 ∧ b ∈ u.2)).map
          Prod.fst).dedup.length) ∧
    ((build_game_graph owners).hasEdge a b = true →
      1 ≤ (build_game_graph owners).weight a b) ∧
    ((build_game_graph owners).hasEdge a a = false) ∧
    ((build_game_graph owners).hasEdge a b =
      (build_game_graph owners).hasEdge b a) ∧
    ((build_game_graph owners).weight a b =
      (build_game_graph owners).weight b a) := by
  refine ⟨?_, ?_, ?_, ?_, hasEdge_symm_build _ a b, weight_symm_build _ a b⟩
  · rw [hasEdge_build_game_graph]
    simp only [mem_pyDedup]
    constructor
    · rintro ⟨u, hu, h1, h2, h3⟩
      exact ⟨h3, u, hu, h1, h2⟩
    · rintro ⟨h3, u, hu, h1, h2⟩
      exact ⟨u, hu, h1, h2, h3⟩
  · intro hab
    rw [weight_build_game_graph]
    have hsub : ((owners.filter fun u => decide (a ∈ u.2 ∧ b ∈ u.2)).map
        Prod.fst).Sublist (owners.map Prod.fst) :=
      (List.filter_sublist owners).map Prod.fst
    have hnd2 := hnd.sublist hsub
    rw [hnd2.dedup, List.length_map, ← List.countP_eq_length_filter]
    apply List.countP_congr
    intro u hu
    simp only [decide_eq_true_eq]
    constructor
    · rintro ⟨h1, h2, -⟩
      exact ⟨h1, h2⟩
    · rintro ⟨h1, h2⟩
      exact ⟨h1, h2, hab⟩
  · intro hE
    rcases (hasEdge_build_game_graph owners a b).mp hE with ⟨u, hu, h1, h2, h3⟩
    rw [weight_build_game_graph]
    rw [show (1 : Nat) = 0 + 1 by rfl]
    apply Nat.succ_le_of_lt
    rw [List.countP_pos]
    exact ⟨u, hu, by simp [h1, h2, h3]⟩
  · rw [Bool.eq_false_iff]
    intro hE
    rcases (hasEdge_build_game_graph owners a a).mp hE with ⟨u, hu, -, -, h3⟩
    exact h3 rfl

/-- C1 witness: on a concrete two-user overlap the theorem gives weight 2
for the co-owned pair. -/
theorem claim_C1_witness :
    (build_game_graph [(1, [10, 20]), (2, [10, 20, 30]), (3, [10])]).weight
      10 20 = 2 := by
  have h := (claim_C1_build_game_graph_cooccurrence
    [(1, [10, 20]), (2, [10, 20, 30]), (3, [10])] (by decide) 10 20).2.1
    (by decide)
  rw [h]
  decide

/-! ## Claim C2 -/

/-- C2 counterexample: a single user owning exactly one item. The item
appears in that user's ownership set, yet the built graph has no node for
it (the claim asserts every owned item is a node). -/
theorem claim_C2_counterexample :
    (∃ u ∈ [((1 : Nat), [(5 : Nat)])], 5 ∈ u.2) ∧
    (build_game_graph [(1, [5])]).hasNode 5 = false := by
  decide

/-- C2 amended: the node set of the built graph is exactly the set of item
ids appearing in the ownership set of some user with at least two distinct
items; items owned only by users with fewer than two distinct items are not
nodes. -/
theorem claim_C2_nodes_amended (owners : List (Nat × List Nat)) (x : Nat) :
    x ∈ (build_game_graph owners).nodes ↔
      ∃ u ∈ owners, x ∈ u.2 ∧ 2 ≤ (pyDedup u.2).length :=
  mem_nodes_build_game_graph owners x

/-! ## The genre tree (anytree)

A game metadata row (`df_games`): `id`, `app_name` (already coerced to a
string by `load_steam_games`, lines 55-57), and `genres`, which may be
missing or malformed (`None` models both; lines 278-280 replace anything
that is not a list by `[]`). -/

structure GameRec where
  id : Nat
  app_name : String
  genres : Option (List String)
deriving Repr, DecidableEq

/-- The normalized genre list of a row: lines 278-280. -/
def GameRec.genresN (g : GameRec) : List String := g.genres.getD []

/-- An anytree node: a name and the list of children in attachment order. -/
inductive GTree where
  | mk (name : String) (children : List GTree)
deriving Repr

def GTree.topName : GTree → String
  | .mk n _ => n

def GTree.children : GTree → List GTree
  | .mk _ cs => cs

/-- Lines 282-285 for one genre occurrence `g` of a game named `name`,
acting on the root's children represented as an association list from genre
name to the leaf names under that genre node: if the genre node is absent
it is appended (lazily created, `genre_dict` memoization), and the new leaf
is appended under it. -/
def insertLeaf : List (String × List String) → String → String →
    List (String × List String)
  | [], g, name => [(g, [name])]
  | (g0, ls) :: rest, g, name =>
      if g0 = g then (g0, ls ++ [name]) :: rest
      else (g0, ls) :: insertLeaf rest g name

/-- The root's children after the whole build loop (lines 265-285): fold
over games in row order, and over each game's normalized genre list in list
order. -/
def genreChildren (games : List GameRec) : List (String × List String) :=
  games.foldl (fun acc row =>
    row.genresN.foldl (fun a g => insertLeaf a g row.app_name) acc) []

/-- `build_genre_tree` (lines 248-288): root "All Games", one child per
distinct genre in first-seen order, and under each genre node one leaf per
(game, genre-occurrence) carrying the game's display name. -/
def build_genre_tree (games : List GameRec) : GTree :=
  .mk "All Games"
    ((genreChildren games).map fun p => .mk p.1 (p.2.map fun n => .mk n []))

/-- The display names of the leaves sitting under the children of `t` whose
name is `g`. -/
def leavesUnder (t : GTree) (g : String) : List String :=
  t.children.flatMap fun c =>
    if c.topName = g then c.children.map GTree.topName else []

/-! ## Closed form of the built genre tree -/

theorem lookup_insertLeaf (acc : List (String × List String))
    (g g9 name : String) :
    alistLookup (insertLeaf acc g name) g9 =
      if g9 = g then some ((alistLookup acc g).getD [] ++ [name])
      else alistLookup acc g9 := by
  induction acc with
  | nil =>
      by_cases h : g9 = g
      · subst h; simp [insertLeaf, alistLookup]
      · have hs : ¬g = g9 := fun hh => h hh.symm
        simp [insertLeaf, alistLookup, h, hs]
  | cons e rest ih =>
      obtain ⟨g0, ls⟩ := e
      by_cases h0 : g0 = g
      · subst h0
        by_cases h9 : g0 = g9
        · subst h9; simp [insertLeaf, alistLookup]
        · have h9s : ¬g9 = g0 := fun hh => h9 hh.symm
          simp [insertLeaf, alistLookup, h9, h9s]
      · by_cases h9 : g0 = g9
        · subst h9
          simp [insertLeaf, alistLookup, h0]
        · simp [insertLeaf, alistLookup, h0, h9, ih]

theorem lookup_foldl_insertLeaf (gs : List String)
    (acc : List (String × List String)) (name g : String) :
    alistLookup (gs.foldl (fun a g0 => insertLeaf a g0 name) acc) g =
      if g ∈ gs ∨ (alistLookup acc g).isSome = true
      then some ((alistLookup acc g).getD [] ++
        List.replicate (gs.count g) name)
      else none := by
  induction gs generalizing acc with
  | nil =>
      cases hl : alistLookup acc g with
      | none => simp [hl]
      | some v => simp [hl]
  | cons g0 gs ih =>
      rw [List.foldl_cons, ih, lookup_insertLeaf]
      by_cases h : g = g0
      · subst h
        rw [List.count_cons_self]
        simp only [if_pos rfl, Option.isSome_some, Option.getD_some,
          List.mem_cons, true_or, or_true, if_pos, List.replicate_succ]
        rw [List.append_assoc]
        simp
      · have hs : ¬g0 = g := fun hh => h hh.symm
        rw [List.count_cons_of_ne h]
        simp only [if_neg h, List.mem_cons]
        have hor : (g = g0 ∨ g ∈ gs) ∨ (alistLookup acc g).isSome = true ↔
            g ∈ gs ∨ (alistLookup acc g).isSome = true := by
          constructor
          · rintro ((hh | hh) | hh)
            · exact absurd hh h
            · exact Or.inl hh
            · exact Or.inr hh
          · rintro (hh | hh)
            · exact Or.inl (Or.inr hh)
            · exact Or.inr hh
        rw [if_congr hor rfl rfl]

theorem getD_foldl_insertLeaf (gs : List String)
    (acc : List (String × List String)) (name g : String) :
    (alistLookup (gs.foldl (fun a g0 => insertLeaf a g0 name) acc) g).getD [] =
      (alistLookup acc g).getD [] ++ List.replicate (gs.count g) name := by
  rw [lookup_foldl_insertLeaf]
  split
  · rfl
  · rename_i h
    push_neg at h
    obtain ⟨h1, h2⟩ := h
    rw [List.count_eq_zero_of_not_mem h1, List.replicate_zero, List.append_nil]
    cases hl : alistLookup acc g with
    | none => simp
    | some v =>
        rw [hl] at h2
        simp at h2

theorem isSome_foldl_insertLeaf (gs : List String)
    (acc : List (String × List String)) (name g : String) :
    (alistLookup (gs.foldl (fun a g0 => insertLeaf a g0 name) acc) g).isSome
        = true ↔
      (g ∈ gs ∨ (alistLookup acc g).isSome = true) := by
  rw [lookup_foldl_insertLeaf]
  split <;> simp_all

theorem lookup_genreChildren_aux (games : List GameRec)
    (acc : List (String × List String)) (g : String) :
    alistLookup (games.foldl (fun acc row =>
        row.genresN.foldl (fun a g0 => insertLeaf a g0 row.app_name) acc)
        acc) g =
      if (∃ gm ∈ games, g ∈ gm.genresN) ∨ (alistLookup acc g).isSome = true
      then some ((alistLookup acc g).getD [] ++
        games.flatMap fun gm =>
          List.replicate (gm.genresN.count g) gm.app_name)
      else none := by
  induction games generalizing acc with
  | nil =>
      cases hl : alistLookup acc g with
      | none => simp [hl]
      | some v => simp [hl]
  | cons gm rest ih =>
      rw [List.foldl_cons, ih, getD_foldl_insertLeaf]
      have hor : (∃ x ∈ rest, g ∈ x.genresN) ∨
          (alistLookup (gm.genresN.foldl
            (fun a g0 => insertLeaf a g0 gm.app_name) acc) g).isSome = true ↔
          (∃ x ∈ gm :: rest, g ∈ x.genresN) ∨
            (alistLookup acc g).isSome = true := by
        rw [isSome_foldl_insertLeaf]
        simp only [List.mem_cons]
        constructor
        · rintro (⟨x, hx, hg⟩ | (hg | hs))
          · exact Or.inl ⟨x, Or.inr hx, hg⟩
          · exact Or.inl ⟨gm, Or.inl rfl, hg⟩
          · exact Or.inr hs
        · rintro (⟨x, (rfl | hx), hg⟩ | hs)
          · exact Or.inr (Or.inl hg)
          · exact Or.inl ⟨x, hx, hg⟩
          · exact Or.inr (Or.inr hs)
      rw [if_congr hor rfl rfl]
      rw [List.flatMap_cons, ← List.append_assoc]

theorem lookup_genreChildren (games : List GameRec) (g : String) :
    alistLookup (genreChildren games) g =
      if ∃ gm ∈ games, g ∈ gm.genresN
      then some (games.flatMap fun gm =>
        List.replicate (gm.genresN.count g) gm.app_name)
      else none := by
  unfold genreChildren
  rw [lookup_genreChildren_aux]
  simp [alistLookup]

theorem isSome_alistLookup_iff_mem_keys [DecidableEq α] (l : List (α × β))
    (a : α) :
    (alistLookup l a).isSome = true ↔ a ∈ l.map Prod.fst := by
  induction l with
  | nil => simp [alistLookup]
  | cons e rest ih =>
      obtain ⟨k, v⟩ := e
      by_cases h : k = a
      · subst h; simp [alistLookup]
      · have hs : ¬a = k := fun hh => h hh.symm
        simp [alistLookup, h, hs, ih]

theorem keys_insertLeaf (acc : List (String × List String)) (g name : String) :
    (insertLeaf acc g name).map Prod.fst =
      if g ∈ acc.map Prod.fst then acc.map Prod.fst
      else acc.map Prod.fst ++ [g] := by
  induction acc with
  | nil => simp [insertLeaf]
  | cons e rest ih =>
      obtain ⟨g0, ls⟩ := e
      by_cases h : g0 = g
      · subst h; simp [insertLeaf]
      · have hs : ¬g = g0 := fun hh => h hh.symm
        simp only [insertLeaf, if_neg h, List.map_cons, List.mem_cons, hs,
          false_or, ih]
        split <;> simp

theorem keys_nodup_insertLeaf (acc : List (String × List String))
    (g name : String) (h : (acc.map Prod.fst).Nodup) :
    ((insertLeaf acc g name).map Prod.fst).Nodup := by
  rw [keys_insertLeaf]
  split
  · exact h
  · rename_i hg
    simp [List.nodup_append, h, hg]

theorem keys_nodup_foldl_insertLeaf (gs : List String)
    (acc : List (String × List String)) (name : String)
    (h : (acc.map Prod.fst).Nodup) :
    (((gs.foldl (fun a g0 => insertLeaf a g0 name) acc)).map Prod.fst).Nodup := by
  induction gs generalizing acc with
  | nil => simpa
  | cons g0 gs ih =>
      rw [List.foldl_cons]
      exact ih _ (keys_nodup_insertLeaf acc g0 name h)

theorem keys_nodup_genreChildren (games : List GameRec) :
    ((genreChildren games).map Prod.fst).Nodup := by
  unfold genreChildren
  suffices h : ∀ acc : List (String × List String), (acc.map Prod.fst).Nodup →
      ((games.foldl (fun acc row =>
        row.genresN.foldl (fun a g0 => insertLeaf a g0 row.app_name) acc)
        acc).map Prod.fst).Nodup by
    exact h [] (by simp)
  induction games with
  | nil => intro acc hacc; simpa
  | cons gm rest ih =>
      intro acc hacc
      rw [List.foldl_cons]
      exact ih _ (keys_nodup_foldl_insertLeaf _ _ _ hacc)

/-- For an association list with duplicate-free keys, concatenating the
values stored under key `g` over the whole list recovers the lookup. -/
theorem flatMap_eq_lookup_of_keys_nodup (l : List (String × List String))
    (hnd : (l.map Prod.fst).Nodup) (g : String) :
    (l.flatMap fun p => if p.1 = g then p.2 else []) =
      (alistLookup l g).getD [] := by
  induction l with
  | nil => simp [alistLookup]
  | cons e rest ih =>
      obtain ⟨g0, ls⟩ := e
      have hnd2 : (g0 :: rest.map Prod.fst).Nodup := by simpa using hnd
      rcases List.nodup_cons.mp hnd2 with ⟨hg0, hrest⟩
      rw [List.flatMap_cons]
      by_cases h : g0 = g
      · subst h
        have hz : (rest.flatMap fun p => if p.1 = g0 then p.2 else []) = [] := by
          rw [List.flatMap_eq_nil_iff]
          intro p hp
          have : p.1 ≠ g0 := by
            intro hh
            exact hg0 (hh ▸ List.mem_map_of_mem Prod.fst hp)
          simp [this]
        simp [hz, alistLookup]
      · have hs : ¬g = g0 := fun hh => h hh.symm
        simp [alistLookup, h, ih hrest]

theorem leavesUnder_build_genre_tree (games : List GameRec) (g : String) :
    leavesUnder (build_genre_tree games) g =
      (alistLookup (genreChildren games) g).getD [] := by
  unfold leavesUnder build_genre_tree
  rw [GTree.children, List.flatMap_map]
  rw [← flatMap_eq_lookup_of_keys_nodup (genreChildren games)
    (keys_nodup_genreChildren games) g]
  apply List.flatMap_congr ?_
  intro p hp
  simp only [GTree.topName, GTree.children]
  split <;> simp [List.map_map, Function.comp_def, GTree.topName]

/-! ## Claim C9 -/

/-- C9: in the built genre tree the root is the sentinel "All Games"; there
is exactly one genre node per distinct genre string (case-sensitive), a
genre string is a node iff some game lists it; and the leaves under genre
node `g` are exactly, in processing order, one copy of a game's display
name per occurrence of `g` in that game's genre list. Hence a game with
genre list [g1, ..., gN] produces exactly N leaf insertions, one under each
listed genre node and under no other, and a game with an empty genre list
is absent from the tree. -/
theorem claim_C9_build_genre_tree (games : List GameRec) (g : String) :
    ((build_genre_tree games).topName = "All Games") ∧
    (((build_genre_tree games).children.map GTree.topName).Nodup) ∧
    (g ∈ (build_genre_tree games).children.map GTree.topName ↔
      ∃ gm ∈ games, g ∈ gm.genresN) ∧
    (leavesUnder (build_genre_tree games) g =
      games.flatMap fun gm =>
        List.replicate (gm.genresN.count g) gm.app_name) := by
  have hkeys : (build_genre_tree games).children.map GTree.topName =
      (genreChildren games).map Prod.fst := by
    unfold build_genre_tree
    rw [GTree.children, List.map_map]
    apply List.map_congr_left
    intro p hp
    simp [GTree.topName]
  refine ⟨rfl, ?_, ?_, ?_⟩
  · rw [hkeys]
    exact keys_nodup_genreChildren games
  · rw [hkeys, ← isSome_alistLookup_iff_mem_keys, lookup_genreChildren]
    split <;> simp_all
  · rw [leavesUnder_build_genre_tree, lookup_genreChildren]
    split
    · rfl
    · rename_i h
      push_neg at h
      rw [Option.getD_none]
      symm
      rw [List.flatMap_eq_nil_iff]
      intro gm hgm
      rw [List.count_eq_zero_of_not_mem (h gm hgm), List.replicate_zero]

/-! ## Sorting lemmas for the insertion sorts -/

theorem insertDescBy_perm (key : α → β) [LinearOrder β] (x : α) (l : List α) :
    (insertDescBy key x l).Perm (x :: l) := by
  induction l with
  | nil => simp [insertDescBy]
  | cons y ys ih =>
      unfold insertDescBy
      split
      · exact List.Perm.refl _
      · exact (ih.cons y).trans (List.Perm.swap x y ys)

theorem sortDescBy_perm (key : α → β) [LinearOrder β] (l : List α) :
    (sortDescBy key l).Perm l := by
  induction l with
  | nil => simp [sortDescBy]
  | cons a l ih =>
      unfold sortDescBy at ih ⊢
      rw [List.foldr_cons]
      exact (insertDescBy_perm key a _).trans (ih.cons a)

theorem sorted_insertDescBy (key : α → β) [LinearOrder β] (x : α)
    (l : List α) (h : l.Pairwise (fun a b => key b ≤ key a)) :
    (insertDescBy key x l).Pairwise (fun a b => key b ≤ key a) := by
  induction l with
  | nil => simp [insertDescBy]
  | cons y ys ih =>
      rcases List.pairwise_cons.mp h with ⟨hy, hys⟩
      unfold insertDescBy
      split
      · rename_i hxy
        rw [List.pairwise_cons]
        refine ⟨?_, h⟩
        intro z hz
        rcases List.mem_cons.mp hz with rfl | hz2
        · exact hxy
        · exact (hy z hz2).trans hxy
      · rename_i hxy
        push_neg at hxy
        rw [List.pairwise_cons]
        refine ⟨?_, ih hys⟩
        intro z hz
        have hz3 := (insertDescBy_perm key x ys).mem_iff.mp hz
        rcases List.mem_cons.mp hz3 with rfl | hz4
        · exact le_of_lt hxy
        · exact hy z hz4

theorem sorted_sortDescBy (key : α → β) [LinearOrder β] (l : List α) :
    (sortDescBy key l).Pairwise (fun a b => key b ≤ key a) := by
  induction l with
  | nil => simp [sortDescBy]
  | cons a l ih =>
      unfold sortDescBy at ih ⊢
      rw [List.foldr_cons]
      exact sorted_insertDescBy key a _ ih

theorem insertAscBy_perm (key : α → β) [LinearOrder β] (x : α) (l : List α) :
    (insertAscBy key x l).Perm (x :: l) := by
  induction l with
  | nil => simp [insertAscBy]
  | cons y ys ih =>
      unfold insertAscBy
      split
      · exact List.Perm.refl _
      · exact (ih.cons y).trans (List.Perm.swap x y ys)

theorem sortAscBy_perm (key : α → β) [LinearOrder β] (l : List α) :
    (sortAscBy key l).Perm l := by
  induction l with
  | nil => simp [sortAscBy]
  | cons a l ih =>
      unfold sortAscBy at ih ⊢
      rw [List.foldr_cons]
      exact (insertAscBy_perm key a _).trans (ih.cons a)

theorem sorted_insertAscBy (key : α → β) [LinearOrder β] (x : α)
    (l : List α) (h : l.Pairwise (fun a b => key a ≤ key b)) :
    (insertAscBy key x l).Pairwise (fun a b => key a ≤ key b) := by
  induction l with
  | nil => simp [insertAscBy]
  | cons y ys ih =>
      rcases List.pairwise_cons.mp h with ⟨hy, hys⟩
      unfold insertAscBy
      split
      · rename_i hxy
        rw [List.pairwise_cons]
        refine ⟨?_, h⟩
        intro z hz
        rcases List.mem_cons.mp hz with rfl | hz2
        · exact hxy
        · exact hxy.trans (hy z hz2)
      · rename_i hxy
        push_neg at hxy
        rw [List.pairwise_cons]
        refine ⟨?_, ih hys⟩
        intro z hz
        have hz3 := (insertAscBy_perm key x ys).mem_iff.mp hz
        rcases List.mem_cons.mp hz3 with rfl | hz4
        · exact le_of_lt hxy
        · exact hy z hz4

theorem sorted_sortAscBy (key : α → β) [LinearOrder β] (l : List α) :
    (sortAscBy key l).Pairwise (fun a b => key a ≤ key b) := by
  induction l with
  | nil => simp [sortAscBy]
  | cons a l ih =>
      unfold sortAscBy at ih ⊢
      rw [List.foldr_cons]
      exact sorted_insertAscBy key a _ ih

/-! ## Graph-neighbor recommendation (`recommend_by_graph`) -/

/-- The neighbors of `t` with their edge weights, as networkx exposes
`game_graph[target_game_id]`: every stored edge incident to `t`, in
edge-storage order (an incidental order the source never relies on beyond
the weight sort). -/
def Graph.neighbors (G : Graph) (t : Nat) : List (Nat × Nat) :=
  G.edges.filterMap fun e =>
    if e.1.1 = t then some (e.1.2, e.2)
    else if e.1.2 = t then some (e.1.1, e.2) else none

/-- Lines 305-312: sort the neighbor (id, weight) pairs descending by weight
(Python `sorted` with `reverse=True` is stable) and keep `[:top_n]`, then
project to ids. -/
def recommended_ids (G : Graph) (target_game_id : Nat) (top_n : Int) :
    List Nat :=
  (pySlice (sortDescBy Prod.snd (G.neighbors target_game_id)) top_n).map
    Prod.fst

/-- Lines 316-322: translate ids through the `id_to_name` dict, silently
skipping ids that have no entry. -/
def recommend_names (ids : List Nat) (id_to_name : List (Nat × String)) :
    List String :=
  ids.filterMap fun gid => alistLookup id_to_name gid

/-- `recommend_by_graph` (lines 291-324). The `id_to_name` dict is optional;
the result is a list of raw ids (`Sum.inl`) when it is absent and a list of
names (`Sum.inr`) when it is supplied. An unknown target returns the empty
list (lines 302-303). -/
def recommend_by_graph (G : Graph) (target_game_id : Nat) (top_n : Int)
    (id_to_name : Option (List (Nat × String))) : List Nat ⊕ List String :=
  if target_game_id ∈ G.nodes then
    match id_to_name with
    | some m =>
        .inr (recommend_names (recommended_ids G target_game_id top_n) m)
    | none => .inl (recommended_ids G target_game_id top_n)
  else
    match id_to_name with
    | some _ => .inr []
    | none => .inl []

/-! ## Claim C3 -/

/-- C3: `recommend_by_graph` returns the empty list when the target is not
a node; otherwise, for non-negative `top_n`, it returns the target's
neighbors sorted descending by edge weight and truncated to the first
`top_n` entries; when an `id_to_name` mapping is supplied each id is
translated to its name with ids absent from the mapping silently dropped
(the output can be shorter than `top_n`), and with no mapping the raw ids
are returned. -/
theorem claim_C3_recommend_by_graph (G : Graph) (t : Nat) (n : Int)
    (m : List (Nat × String)) :
    (t ∉ G.nodes →
      recommend_by_graph G t n none = .inl [] ∧
      recommend_by_graph G t n (some m) = .inr []) ∧
    (t ∈ G.nodes → 0 ≤ n →
      ∃ p : List (Nat × Nat), p.Perm (G.neighbors t) ∧
        p.Pairwise (fun a b => b.2 ≤ a.2) ∧
        recommend_by_graph G t n none = .inl ((p.map Prod.fst).take n.toNat) ∧
        recommend_by_graph G t n (some m) =
          .inr (((p.map Prod.fst).take n.toNat).filterMap (alistLookup m)) ∧
        (((p.map Prod.fst).take n.toNat).filterMap (alistLookup m)).length
          ≤ n.toNat) := by
  constructor
  · intro ht
    constructor
    · unfold recommend_by_graph
      rw [if_neg ht]
    · unfold recommend_by_graph
      rw [if_neg ht]
  · intro ht hn
    refine ⟨sortDescBy Prod.snd (G.neighbors t), sortDescBy_perm _ _,
      sorted_sortDescBy _ _, ?_, ?_, ?_⟩
    · unfold recommend_by_graph recommended_ids pySlice
      rw [if_pos ht, if_pos hn, List.map_take]
    · unfold recommend_by_graph recommend_names recommended_ids pySlice
      rw [if_pos ht, if_pos hn, List.map_take]
    · exact le_trans (List.length_filterMap_le _ _) (List.length_take_le _ _)

/-- C3 witness: a concrete graph in which target 99 is unknown (empty
result) and target 10 has two neighbors, evaluated with and without a name
mapping at `top_n = 2`. -/
theorem claim_C3_witness :
    (recommend_by_graph (build_game_graph
        [(1, [10, 20]), (2, [10, 20, 30]), (3, [10, 30])]) 99 5 none =
      .inl []) ∧
    (∃ p : List (Nat × Nat),
      p.Perm ((build_game_graph
        [(1, [10, 20]), (2, [10, 20, 30]), (3, [10, 30])]).neighbors 10) ∧
      p.Pairwise (fun a b => b.2 ≤ a.2) ∧
      recommend_by_graph (build_game_graph
        [(1, [10, 20]), (2, [10, 20, 30]), (3, [10, 30])]) 10 2 none =
        .inl ((p.map Prod.fst).take (2 : Int).toNat) ∧
      recommend_by_graph (build_game_graph
        [(1, [10, 20]), (2, [10, 20, 30]), (3, [10, 30])]) 10 2
        (some [(20, "A"), (30, "B")]) =
        .inr (((p.map Prod.fst).take (2 : Int).toNat).filterMap
          (alistLookup [(20, "A"), (30, "B")])) ∧
      (((p.map Prod.fst).take (2 : Int).toNat).filterMap
        (alistLookup [(20, "A"), (30, "B")])).length ≤ (2 : Int).toNat) := by
  constructor
  · exact ((claim_C3_recommend_by_graph
      (build_game_graph [(1, [10, 20]), (2, [10, 20, 30]), (3, [10, 30])])
      99 5 [(20, "A"), (30, "B")]).1 (by decide)).1
  · exact (claim_C3_recommend_by_graph
      (build_game_graph [(1, [10, 20]), (2, [10, 20, 30]), (3, [10, 30])])
      10 2 [(20, "A"), (30, "B")]).2 (by decide) (by decide)

/-! ## Tree-based random high-rating recommendation -/

mutual
/-- The nested `dfs` of `recommend_by_tree_random_high_rating` (lines
401-408): whenever a visited node's name equals the target genre, append
the names of its children; then recurse into all children in order. -/
def dfsCollect (target_genre : String) : GTree → List String
  | .mk n cs =>
      (if n = target_genre then cs.map GTree.topName else []) ++
        dfsCollectList target_genre cs

def dfsCollectList (target_genre : String) : List GTree → List String
  | [] => []
  | c :: cs => dfsCollect target_genre c ++ dfsCollectList target_genre cs
end

/-- One draw of the selection model of `random.sample`: pick the element at
position `rng step % pool.length`, remove it, recurse with the next stream
position. The function `rng` is the explicit stream of pseudo-random
numbers; a uniform stream yields the uniform without-replacement sample. -/
def sampleR (rng : Nat → Nat) (step : Nat) : Nat → List α → List α
  | 0, _ => []
  | _ + 1, [] => []
  | k + 1, x :: pool =>
      (x :: pool).get ⟨rng step % (x :: pool).length,
          Nat.mod_lt _ (by simp)⟩ ::
        sampleR rng (step + 1) k
          ((x :: pool).eraseIdx (rng step % (x :: pool).length))

/-- Python `str.lower()`, modelled character-wise on the string data
(`String.toLower` itself recurses by well-founded recursion on byte
positions, which the kernel cannot evaluate; this character-list version is
extensionally the same function). -/
def pyLower (s : String) : String := ⟨s.data.map Char.toLower⟩

/-- Lines 398-422: gather the names under the target genre, resolve them
case-insensitively through `name_to_id` (dropping unresolved names), attach
ratings with default 0, sort by rating descending (Python's stable
`list.sort(..., reverse=True)`), and slice `[:top_cutoff]` as the candidate
pool. -/
def topCandidates (genre_tree_root : GTree) (target_genre : String)
    (name_to_id : List (String × Nat)) (id_to_rating : List (Nat × Rat))
    (top_cutoff : Int) : List (String × Rat) :=
  let all_games_in_genre := dfsCollect target_genre genre_tree_root
  let rated_games := all_games_in_genre.filterMap fun gname =>
    (alistLookup name_to_id (pyLower gname)).map fun gid =>
      (gname, (alistLookup id_to_rating gid).getD 0)
  pySlice (sortDescBy Prod.snd rated_games) top_cutoff

/-- `recommend_by_tree_random_high_rating` (lines 376-433). An empty pool
returns `[]` (line 423-424); a pool of at most `num_random_picks` entries is
returned whole in rating-sorted order (lines 426-428); otherwise
`random.sample` draws the sample, raising `ValueError` when the requested
size is negative. -/
def recommend_by_tree_random_high_rating (genre_tree_root : GTree)
    (target_genre : String) (name_to_id : List (String × Nat))
    (id_to_rating : List (Nat × Rat)) (num_random_picks : Int)
    (top_cutoff : Int) (rng : Nat → Nat) : Except String (List String) :=
  let top_candidates := topCandidates genre_tree_root target_genre name_to_id
    id_to_rating top_cutoff
  if top_candidates.isEmpty then .ok []
  else if (top_candidates.length : Int) ≤ num_random_picks then
    .ok (top_candidates.map Prod.fst)
  else if num_random_picks < 0 then
    .error "ValueError: Sample larger than population or is negative"
  else
    .ok ((sampleR rng 0 num_random_picks.toNat top_candidates).map Prod.fst)

/-! ## Lemmas about the sampling model -/

theorem get_cons_eraseIdx_perm (l : List α) (i : Fin l.length) :
    (l.get i :: l.eraseIdx i.val).Perm l := by
  induction l with
  | nil => exact absurd i.isLt (by simp)
  | cons a t ih =>
      match i with
      | ⟨0, h⟩ => simp
      | ⟨j + 1, h⟩ =>
          have hj : j < t.length := by simpa using h
          have step := ih ⟨j, hj⟩
          show (t.get ⟨j, hj⟩ :: a :: t.eraseIdx j).Perm (a :: t)
          exact (List.Perm.swap a (t.get ⟨j, hj⟩) (t.eraseIdx j)).trans
            (step.cons a)

theorem subperm_cons_cons (a : α) {l1 l2 : List α} (h : l1.Subperm l2) :
    (a :: l1).Subperm (a :: l2) := by
  obtain ⟨w, hperm, hsub⟩ := h
  exact ⟨a :: w, hperm.cons a, hsub.cons₂ a⟩

theorem sampleR_subperm (rng : Nat → Nat) (step k : Nat) (pool : List α) :
    (sampleR rng step k pool).Subperm pool := by
  induction k generalizing step pool with
  | zero =>
      rw [sampleR]
      exact List.nil_subperm
  | succ k ih =>
      cases pool with
      | nil =>
          rw [sampleR]
      | cons x t =>
          rw [sampleR]
          refine List.Subperm.trans ?_
            (List.Perm.subperm (get_cons_eraseIdx_perm (x :: t)
              ⟨rng step % (x :: t).length, Nat.mod_lt _ (by simp)⟩))
          exact subperm_cons_cons _ (ih (step + 1) _)

theorem sampleR_length (rng : Nat → Nat) (step k : Nat) (pool : List α)
    (h : k ≤ pool.length) :
    (sampleR rng step k pool).length = k := by
  induction k generalizing step pool with
  | zero => simp [sampleR]
  | succ k ih =>
      cases pool with
      | nil => simp at h
      | cons x t =>
          rw [sampleR, List.length_cons]
          congr 1
          apply ih
          rw [List.length_eraseIdx_of_lt (Nat.mod_lt _ (by simp))]
          simp only [List.length_cons] at h ⊢
          omega

theorem pySlice_sublist (l : List α) (n : Int) : (pySlice l n).Sublist l := by
  unfold pySlice
  split <;> exact List.take_sublist _ _

theorem pySlice_nil (n : Int) : pySlice ([] : List α) n = [] := by
  unfold pySlice
  split <;> simp

theorem subperm_map (f : α → β) {l1 l2 : List α} (h : l1.Subperm l2) :
    (l1.map f).Subperm (l2.map f) := by
  obtain ⟨w, hperm, hsub⟩ := h
  exact ⟨w.map f, hperm.map f, hsub.map f⟩

/-! ## Claim C4 -/

/-- C4: the candidate pool of `recommend_by_tree_random_high_rating` is
rating-sorted descending; an empty genre match or an empty pool yields
`.ok []` (never an error); a pool of at most `num_random_picks` entries is
returned whole, as names, in rating-sorted order, with no padding or
duplication; and a larger pool yields exactly `num_random_picks` names
drawn without replacement from the pool (the random draw is modelled by the
injected stream `rng`; a uniform stream gives the uniform sample). -/
theorem claim_C4_recommend_by_tree (root : GTree) (genre : String)
    (n2i : List (String × Nat)) (i2r : List (Nat × Rat))
    (picks cutoff : Int) (rng : Nat → Nat) :
    ((topCandidates root genre n2i i2r cutoff).Pairwise
        fun a b => b.2 ≤ a.2) ∧
    (dfsCollect genre root = [] →
      recommend_by_tree_random_high_rating root genre n2i i2r picks cutoff
        rng = .ok []) ∧
    (topCandidates root genre n2i i2r cutoff = [] →
      recommend_by_tree_random_high_rating root genre n2i i2r picks cutoff
        rng = .ok []) ∧
    (((topCandidates root genre n2i i2r cutoff).length : Int) ≤ picks →
      recommend_by_tree_random_high_rating root genre n2i i2r picks cutoff
        rng =
        .ok ((topCandidates root genre n2i i2r cutoff).map Prod.fst)) ∧
    (0 ≤ picks →
      picks < ((topCandidates root genre n2i i2r cutoff).length : Int) →
      ∃ l : List String,
        recommend_by_tree_random_high_rating root genre n2i i2r picks cutoff
          rng = .ok l ∧
        l.length = picks.toNat ∧
        l.Subperm ((topCandidates root genre n2i i2r cutoff).map
          Prod.fst)) := by
  have hempty : topCandidates root genre n2i i2r cutoff = [] →
      recommend_by_tree_random_high_rating root genre n2i i2r picks cutoff
        rng = .ok [] := by
    intro h
    unfold recommend_by_tree_random_high_rating
    rw [h]
    rfl
  refine ⟨?_, ?_, hempty, ?_, ?_⟩
  · have hs : (sortDescBy Prod.snd ((dfsCollect genre root).filterMap
        fun gname => (alistLookup n2i (pyLower gname)).map fun gid =>
          (gname, (alistLookup i2r gid).getD 0))).Pairwise
        (fun a b : String × Rat => b.2 ≤ a.2) := sorted_sortDescBy _ _
    exact hs.sublist (pySlice_sublist _ _)
  · intro h
    apply hempty
    unfold topCandidates
    rw [h]
    simp [sortDescBy, pySlice_nil]
  · intro h
    by_cases hnil : topCandidates root genre n2i i2r cutoff = []
    · rw [hempty hnil, hnil]
      rfl
    · have hE : (topCandidates root genre n2i i2r cutoff).isEmpty = false := by
        cases h2 : topCandidates root genre n2i i2r cutoff
        · exact absurd h2 hnil
        · rfl
      simp only [recommend_by_tree_random_high_rating]
      rw [hE, if_neg (by simp), if_pos h]
  · intro h0 hlt
    have hnil : topCandidates root genre n2i i2r cutoff ≠ [] := by
      intro h2
      rw [h2] at hlt
      simp only [List.length_nil, Nat.cast_zero] at hlt
      omega
    have hE : (topCandidates root genre n2i i2r cutoff).isEmpty = false := by
      cases h2 : topCandidates root genre n2i i2r cutoff
      · exact absurd h2 hnil
      · rfl
    have hle : ¬(((topCandidates root genre n2i i2r cutoff).length : Int)
        ≤ picks) := by omega
    have hneg : ¬(picks < 0) := by omega
    refine ⟨(sampleR rng 0 picks.toNat
      (topCandidates root genre n2i i2r cutoff)).map Prod.fst, ?_, ?_, ?_⟩
    · simp only [recommend_by_tree_random_high_rating]
      rw [hE, if_neg (by simp), if_neg hle, if_neg hneg]
    · rw [List.length_map]
      apply sampleR_length
      omega
    · exact subperm_map Prod.fst (sampleR_subperm rng 0 picks.toNat _)

/-- A small concrete metadata fixture shared by evaluation witnesses. -/
def gamesFx : List GameRec :=
  [⟨1, "A", some ["Action"]⟩, ⟨2, "B", some ["Action"]⟩,
    ⟨3, "C", some ["Puzzle"]⟩]

/-- Name index fixture (keys lowercased, as `main.py` builds it). -/
def n2iFx : List (String × Nat) := [("a", 1), ("b", 2), ("c", 3)]

/-- Rating index fixture; game 3 has no rating (integer-valued rationals
keep kernel evaluation of comparisons cheap). -/
def i2rFx : List (Nat × Rat) := [(1, 1), (2, 2)]

/-- C4 witness: on the concrete fixture tree the "Action" pool has 2
entries; with `num_random_picks = 5` the whole rating-sorted pool comes
back, and with `num_random_picks = 1` exactly one name is drawn from it. -/
theorem claim_C4_witness :
    (recommend_by_tree_random_high_rating (build_genre_tree gamesFx)
        "Action" n2iFx i2rFx 5 20 (fun _ => 0) =
      .ok ((topCandidates (build_genre_tree gamesFx) "Action" n2iFx i2rFx
        20).map Prod.fst)) ∧
    (∃ l : List String,
      recommend_by_tree_random_high_rating (build_genre_tree gamesFx)
        "Action" n2iFx i2rFx 1 20 (fun _ => 0) = .ok l ∧
      l.length = (1 : Int).toNat ∧
      l.Subperm ((topCandidates (build_genre_tree gamesFx) "Action" n2iFx
        i2rFx 20).map Prod.fst)) := by
  constructor
  · exact (claim_C4_recommend_by_tree (build_genre_tree gamesFx) "Action"
      n2iFx i2rFx 5 20 (fun _ => 0)).2.2.2.1 (by decide)
  · exact (claim_C4_recommend_by_tree (build_genre_tree gamesFx) "Action"
      n2iFx i2rFx 1 20 (fun _ => 0)).2.2.2.2 (by decide) (by decide)

/-! ## Hybrid recommendation -/

/-- Python `list(set(a) & set(b))` under a deterministic materialization:
the distinct elements of `a` that also occur in `b`. CPython's iteration
order over a set is hash-dependent; only the set of returned elements is
determined, which is what the membership theorems below state. -/
def pySetIntersectList [DecidableEq α] (a b : List α) : List α :=
  (pyDedup a).filter fun x => x ∈ b

/-- Extract the name list from a `recommend_by_graph` result; when the call
was made with an `id_to_name` dict (as `hybrid_recommendation` does, line
346-350) the result is always the `.inr` branch. -/
def graphNamesOf : List Nat ⊕ List String → List String
  | .inl _ => []
  | .inr l => l

/-- `hybrid_recommendation` (lines 327-373): the graph recommendation with
`top_n = 20` translated to names (unknown ids dropped), the tree-based
random high-rating recommendation, and the set intersection of the two name
sets materialized as a list. An empty intersection prints a notice and
returns the empty list (lines 369-371), not an error; a `ValueError` from
`random.sample` inside the tree step propagates to the caller. -/
def hybrid_recommendation (game_graph : Graph) (genre_tree_root : GTree)
    (target_game_id : Nat) (target_genre : String)
    (id_to_name : List (Nat × String)) (name_to_id : List (String × Nat))
    (id_to_rating : List (Nat × Rat)) (num_random_picks top_cutoff : Int)
    (rng : Nat → Nat) : Except String (List String) :=
  let rec_graph_names := graphNamesOf
    (recommend_by_graph game_graph target_game_id 20 (some id_to_name))
  match recommend_by_tree_random_high_rating genre_tree_root target_genre
      name_to_id id_to_rating num_random_picks top_cutoff rng with
  | .error e => .error e
  | .ok rec_tree_random =>
      .ok (pySetIntersectList rec_graph_names rec_tree_random)

theorem mem_pySetIntersectList [DecidableEq α] (a b : List α) (x : α) :
    x ∈ pySetIntersectList a b ↔ x ∈ a ∧ x ∈ b := by
  unfold pySetIntersectList
  rw [List.mem_filter, mem_pyDedup]
  simp

/-! ## Claim C5 -/

/-- C5: whenever the tree step succeeds, `hybrid_recommendation` returns
exactly the set intersection of the graph-based name set (`top_n = 20`,
unknown ids dropped) and the tree-based name set, materialized as a list:
membership in the result is equivalent to membership in both sub-results
(so the result is a subset of each), and if either sub-result is empty the
returned list is empty. -/
theorem claim_C5_hybrid_recommendation (G : Graph) (root : GTree)
    (tid : Nat) (genre : String) (i2n : List (Nat × String))
    (n2i : List (String × Nat)) (i2r : List (Nat × Rat))
    (picks cutoff : Int) (rng : Nat → Nat) (tl : List String)
    (htree : recommend_by_tree_random_high_rating root genre n2i i2r picks
      cutoff rng = .ok tl) :
    ∃ gl : List String,
      recommend_by_graph G tid 20 (some i2n) = .inr gl ∧
      hybrid_recommendation G root tid genre i2n n2i i2r picks cutoff rng =
        .ok (pySetIntersectList gl tl) ∧
      (∀ x, x ∈ pySetIntersectList gl tl ↔ x ∈ gl ∧ x ∈ tl) ∧
      ((gl = [] ∨ tl = []) → pySetIntersectList gl tl = []) := by
  have hg : ∃ gl : List String,
      recommend_by_graph G tid 20 (some i2n) = .inr gl := by
    unfold recommend_by_graph
    split
    · exact ⟨_, rfl⟩
    · exact ⟨[], rfl⟩
  obtain ⟨gl, hgl⟩ := hg
  refine ⟨gl, hgl, ?_, fun x => mem_pySetIntersectList gl tl x, ?_⟩
  · unfold hybrid_recommendation
    rw [htree, hgl]
    rfl
  · rintro (rfl | rfl)
    · rfl
    · unfold pySetIntersectList
      rw [List.filter_eq_nil_iff]
      intro x hx
      simp

/-- C5 witness: on the concrete fixtures the tree step returns
`.ok ["B", "A"]` and the theorem applies. -/
theorem claim_C5_witness :
    ∃ gl : List String,
      recommend_by_graph (build_game_graph [(1, [1, 2]), (2, [1, 2, 3])]) 1
        20 (some [(1, "A"), (2, "B"), (3, "C")]) = .inr gl ∧
      hybrid_recommendation (build_game_graph [(1, [1, 2]), (2, [1, 2, 3])])
        (build_genre_tree gamesFx) 1 "Action" [(1, "A"), (2, "B"), (3, "C")]
        n2iFx i2rFx 5 20 (fun _ => 0) =
        .ok (pySetIntersectList gl ["B", "A"]) ∧
      (∀ x, x ∈ pySetIntersectList gl ["B", "A"] ↔
        x ∈ gl ∧ x ∈ ["B", "A"]) ∧
      ((gl = [] ∨ ["B", "A"] = ([] : List String)) →
        pySetIntersectList gl ["B", "A"] = []) :=
  claim_C5_hybrid_recommendation
    (build_game_graph [(1, [1, 2]), (2, [1, 2, 3])])
    (build_genre_tree gamesFx) 1 "Action" [(1, "A"), (2, "B"), (3, "C")]
    n2iFx i2rFx 5 20 (fun _ => 0) ["B", "A"] (by rfl)

/-! ## Popularity statistics -/

structure PopRow where
  item_id : Nat
  app_name : String
  genres : List String
  popularity : Nat
deriving Repr, DecidableEq

/-- `build_popularity_stats` (lines 436-459). Ownership rows are
`(user_id, item_id)` pairs (the only two columns the function touches).
`groupby('item_id')['user_id'].nunique()` yields, per distinct item id in
ascending order (pandas sorts group keys), the number of distinct owning
users; the inner merge with `df_games` on `item_id = id` keeps only matched
rows, preserving the left (popularity) row order and emitting one row per
matching metadata row; `genres` is normalized to a list. -/
def build_popularity_stats (df_games : List GameRec)
    (df_user_items : List (Nat × Nat)) : List PopRow :=
  let keys := sortAscBy (fun x : Nat => x) (pyDedup (df_user_items.map Prod.snd))
  keys.flatMap fun i =>
    (df_games.filter fun g => g.id = i).map fun g =>
      { item_id := i, app_name := g.app_name, genres := g.genresN,
        popularity :=
          (pyDedup ((df_user_items.filter fun r => r.2 = i).map
            Prod.fst)).length }

theorem pyDedup_length_eq_toFinset_card [DecidableEq α] (l : List α) :
    (pyDedup l).length = l.toFinset.card := by
  have h1 : (pyDedup l).toFinset = l.toFinset := by
    ext x
    simp [List.mem_toFinset, mem_pyDedup]
  rw [← h1]
  exact (List.toFinset_card_of_nodup (pyDedup_nodup l)).symm

theorem length_filter_id_le_one (games : List GameRec) (i : Nat)
    (hg : (games.map GameRec.id).Nodup) :
    (games.filter fun g => g.id = i).length ≤ 1 := by
  induction games with
  | nil => simp
  | cons g rest ih =>
      have hnd2 : (g.id :: rest.map GameRec.id).Nodup := by simpa using hg
      rcases List.nodup_cons.mp hnd2 with ⟨hgid, hrest⟩
      rw [List.filter_cons]
      by_cases h : g.id = i
      · have hz : (rest.filter fun g2 => g2.id = i) = [] := by
          rw [List.filter_eq_nil_iff]
          intro x hx
          simp only [decide_eq_true_eq]
          intro hxi
          apply hgid
          rw [h, ← hxi]
          exact List.mem_map_of_mem GameRec.id hx
        simp [h, hz]
      · have hc : (decide (g.id = i)) = false := by
          simp [h]
        rw [hc]
        simpa using ih hrest

theorem keys_sorted_mem (ownership : List (Nat × Nat)) (i : Nat) :
    i ∈ sortAscBy (fun x : Nat => x) (pyDedup (ownership.map Prod.snd)) ↔
      ∃ o ∈ ownership, o.2 = i := by
  rw [(sortAscBy_perm (fun x : Nat => x) _).mem_iff, mem_pyDedup,
    List.mem_map]

theorem keys_sorted_nodup (ownership : List (Nat × Nat)) :
    (sortAscBy (fun x : Nat => x)
      (pyDedup (ownership.map Prod.snd))).Nodup :=
  ((sortAscBy_perm (fun x : Nat => x) _).nodup_iff).mpr
    (pyDedup_nodup _)

theorem map_itemId_build (games : List GameRec)
    (ownership : List (Nat × Nat)) :
    (build_popularity_stats games ownership).map PopRow.item_id =
      (sortAscBy (fun x : Nat => x)
        (pyDedup (ownership.map Prod.snd))).flatMap
        fun i => List.replicate (games.filter fun g => g.id = i).length i := by
  unfold build_popularity_stats
  rw [List.map_flatMap]
  apply List.flatMap_congr
  intro i hi
  rw [List.map_map]
  exact List.map_const' _ i

theorem nodup_flatMap_replicate (keys : List Nat) (hk : keys.Nodup)
    (n : Nat → Nat) (hn : ∀ i, n i ≤ 1) :
    (keys.flatMap fun i => List.replicate (n i) i).Nodup := by
  induction keys with
  | nil => simp
  | cons k rest ih =>
      rcases List.nodup_cons.mp hk with ⟨hkm, hrest⟩
      rw [List.flatMap_cons, List.nodup_append]
      refine ⟨?_, ih hrest, ?_⟩
      · rcases Nat.le_one_iff_eq_zero_or_eq_one.mp (hn k) with h | h <;>
          simp [h]
      · intro a ha1 ha2
        have hak : a = k := List.eq_of_mem_replicate ha1
        subst hak
        rcases List.mem_flatMap.mp ha2 with ⟨i, hi, hrep⟩
        have hai : a = i := List.eq_of_mem_replicate hrep
        exact hkm (hai ▸ hi)

/-! ## Claim C6 -/

/-- C6: in the table built by `build_popularity_stats` (metadata ids
assumed unique, as a metadata mapping), there is at most one row per
item_id; a row for item_id i exists iff i is owned by some user and has a
metadata row (inner-join law, so zero-owner items and metadata-less items
are absent); and every row's popularity is the number of distinct user ids
owning its item_id. -/
theorem claim_C6_build_popularity_stats (games : List GameRec)
    (ownership : List (Nat × Nat)) (hg : (games.map GameRec.id).Nodup) :
    ((build_popularity_stats games ownership).map PopRow.item_id).Nodup ∧
    (∀ i : Nat,
      (∃ r ∈ build_popularity_stats games ownership, r.item_id = i) ↔
      ((∃ o ∈ ownership, o.2 = i) ∧ ∃ g ∈ games, g.id = i)) ∧
    (∀ r ∈ build_popularity_stats games ownership,
      r.popularity = ((ownership.filter fun o => o.2 = r.item_id).map
        Prod.fst).toFinset.card) := by
  refine ⟨?_, ?_, ?_⟩
  · rw [map_itemId_build]
    exact nodup_flatMap_replicate _ (keys_sorted_nodup ownership) _
      (fun i => length_filter_id_le_one games i hg)
  · intro i
    constructor
    · rintro ⟨r, hr, rfl⟩
      unfold build_popularity_stats at hr
      rcases List.mem_flatMap.mp hr with ⟨j, hj, hrj⟩
      rcases List.mem_map.mp hrj with ⟨g, hgf, rfl⟩
      rcases List.mem_filter.mp hgf with ⟨hgm, hgid⟩
      simp only [decide_eq_true_eq] at hgid
      refine ⟨(keys_sorted_mem ownership j).mp hj, g, hgm, hgid⟩
    · rintro ⟨ho, g, hgm, hgid⟩
      refine ⟨PopRow.mk i g.app_name g.genresN
        ((pyDedup ((ownership.filter fun r => r.2 = i).map
          Prod.fst)).length), ?_, rfl⟩
      unfold build_popularity_stats
      apply List.mem_flatMap.mpr
      refine ⟨i, (keys_sorted_mem ownership i).mpr ho, ?_⟩
      apply List.mem_map.mpr
      refine ⟨g, ?_, rfl⟩
      exact List.mem_filter.mpr ⟨hgm, by simp [hgid]⟩
  · intro r hr
    unfold build_popularity_stats at hr
    rcases List.mem_flatMap.mp hr with ⟨j, hj, hrj⟩
    rcases List.mem_map.mp hrj with ⟨g, hgf, rfl⟩
    exact pyDedup_length_eq_toFinset_card _

/-- C6 witness: a concrete table. Item 1 is owned by users 10 and 11, item
2 by user 10, and item 5 is owned but has no metadata row; items 2 and 3
have metadata; item 3 has no owners. -/
theorem claim_C6_witness :
    ((build_popularity_stats gamesFx
        [(10, 1), (11, 1), (10, 2), (12, 5)]).map PopRow.item_id).Nodup ∧
    (∀ i : Nat,
      (∃ r ∈ build_popularity_stats gamesFx
          [(10, 1), (11, 1), (10, 2), (12, 5)], r.item_id = i) ↔
      ((∃ o ∈ [((10 : Nat), (1 : Nat)), (11, 1), (10, 2), (12, 5)],
          o.2 = i) ∧
        ∃ g ∈ gamesFx, g.id = i)) ∧
    (∀ r ∈ build_popularity_stats gamesFx
        [(10, 1), (11, 1), (10, 2), (12, 5)],
      r.popularity = ((([((10 : Nat), (1 : Nat)), (11, 1), (10, 2),
          (12, 5)].filter fun o => o.2 = r.item_id)).map
        Prod.fst).toFinset.card) :=
  claim_C6_build_popularity_stats gamesFx
    [(10, 1), (11, 1), (10, 2), (12, 5)] (by decide)

/-! ## Top-10 queries and claim C7 -/

/-- `get_top10_overall_games` (lines 462-468).
`pop_stats.sort_values(by='popularity', ascending=False)` goes through
pandas `nargsort`: it computes an ascending argsort of the popularity
column and reverses the whole indexer, so rows with equal popularity
surface in reversed row order. The ascending argsort is modelled as the
stable ascending sort (numpy's default introsort runs plain insertion
sort, which is stable, on the small slices at issue here; its tie order on
large inputs is unspecified upstream). `head(10)` and the name column
follow. -/
def get_top10_overall_games (pop_stats : List PopRow) : List String :=
  (((sortAscBy PopRow.popularity pop_stats).reverse).take 10).map
    PopRow.app_name

/-- C7 counterexample: two rows with equal popularity. The claim predicts
the stable original order ["A", "B"]; the code reverses the ascending
argsort and returns ["B", "A"]. -/
theorem claim_C7_counterexample :
    get_top10_overall_games [⟨1, "A", [], 5⟩, ⟨2, "B", [], 5⟩] =
      ["B", "A"] ∧ ["B", "A"] ≠ ["A", "B"] := by
  constructor
  · decide
  · decide

/-- C7 amended: `get_top10_overall_games` returns at most 10 names, namely
a popularity-descending permutation of the table truncated to the first 10
and projected to names; ties are in an implementation-determined order (the
reversed ascending argsort, not original row order). Repeated calls on the
same table trivially return the same sequence (the function is pure). -/
theorem claim_C7_top10_amended (pop_stats : List PopRow) :
    (get_top10_overall_games pop_stats).length ≤ 10 ∧
    ∃ p : List PopRow, p.Perm pop_stats ∧
      p.Pairwise (fun a b => b.popularity ≤ a.popularity) ∧
      get_top10_overall_games pop_stats = (p.take 10).map PopRow.app_name := by
  constructor
  · rw [get_top10_overall_games, List.length_map]
    exact List.length_take_le _ _
  · refine ⟨(sortAscBy PopRow.popularity pop_stats).reverse, ?_, ?_, rfl⟩
    · exact (List.reverse_perm _).trans (sortAscBy_perm _ _)
    · rw [List.pairwise_reverse]
      exact sorted_sortAscBy PopRow.popularity pop_stats

/-! ## Claim C8 -/

/-- C8 counterexample: a negative `top_n` is NOT signaled as an error:
`recommend_by_graph` applies Python slice semantics, silently dropping the
trailing neighbors. On a graph where the target has neighbors 2 (weight 2)
and 3 (weight 1), `top_n = -1` returns the single-element list [2]. -/
theorem claim_C8_counterexample :
    recommend_by_graph (build_game_graph [(1, [1, 2]), (2, [1, 2, 3])]) 1
      (-1) none = .inl [2] := by
  decide

/-- C8 amended: data-sparsity conditions never raise, and a negative
`num_random_picks` with a nonempty candidate pool is signaled by the
`ValueError` that `random.sample` raises; but a negative `top_n` in
`recommend_by_graph` is NOT signaled: the function returns normally, with
the sorted neighbor list truncated by Python slice semantics (dropping the
last `|top_n|` entries). -/
theorem claim_C8_amended (root : GTree) (genre : String)
    (n2i : List (String × Nat)) (i2r : List (Nat × Rat))
    (picks cutoff : Int) (rng : Nat → Nat) (G : Graph) (t : Nat) (n : Int) :
    (topCandidates root genre n2i i2r cutoff ≠ [] → picks < 0 →
      recommend_by_tree_random_high_rating root genre n2i i2r picks cutoff
        rng =
        .error "ValueError: Sample larger than population or is negative") ∧
    (n < 0 → t ∈ G.nodes →
      recommend_by_graph G t n none =
        .inl (((sortDescBy Prod.snd (G.neighbors t)).map Prod.fst).take
          ((G.neighbors t).length - (-n).toNat))) := by
  constructor
  · intro hnil hneg
    have hE : (topCandidates root genre n2i i2r cutoff).isEmpty = false := by
      cases h2 : topCandidates root genre n2i i2r cutoff
      · exact absurd h2 hnil
      · rfl
    have hlen : 0 < (topCandidates root genre n2i i2r cutoff).length := by
      cases h2 : topCandidates root genre n2i i2r cutoff
      · exact absurd h2 hnil
      · simp
    have hle : ¬(((topCandidates root genre n2i i2r cutoff).length : Int)
        ≤ picks) := by omega
    simp only [recommend_by_tree_random_high_rating]
    rw [hE, if_neg (by simp), if_neg hle, if_pos hneg]
  · intro hn ht
    unfold recommend_by_graph recommended_ids pySlice
    rw [if_pos ht, if_neg (by omega), List.map_take]
    have hlen : (sortDescBy Prod.snd (G.neighbors t)).length =
        (G.neighbors t).length :=
      (sortDescBy_perm Prod.snd (G.neighbors t)).length_eq
    rw [hlen]

/-- C8 witness: on the concrete fixtures, `num_random_picks = -1` with the
nonempty "Action" pool raises the ValueError, while `top_n = -1` on a known
target returns normally with the truncated list. -/
theorem claim_C8_witness :
    (recommend_by_tree_random_high_rating (build_genre_tree gamesFx)
        "Action" n2iFx i2rFx (-1) 20 (fun _ => 0) =
      .error "ValueError: Sample larger than population or is negative") ∧
    (recommend_by_graph (build_game_graph [(1, [1, 2]), (2, [1, 2, 3])]) 1
        (-1) none =
      .inl (((sortDescBy Prod.snd ((build_game_graph
          [(1, [1, 2]), (2, [1, 2, 3])]).neighbors 1)).map Prod.fst).take
        (((build_game_graph [(1, [1, 2]), (2, [1, 2, 3])]).neighbors
          1).length - (-(-1 : Int)).toNat))) := by
  constructor
  · exact (claim_C8_amended (build_genre_tree gamesFx) "Action" n2iFx i2rFx
      (-1) 20 (fun _ => 0) Graph.empty 0 0).1 (by decide) (by decide)
  · exact (claim_C8_amended (build_genre_tree gamesFx) "Action" n2iFx i2rFx
      (-1) 20 (fun _ => 0)
      (build_game_graph [(1, [1, 2]), (2, [1, 2, 3])]) 1 (-1)).2
      (by decide) (by decide)

/-! ## Recommendation calls as state transformers (claim C10)

The Python recommendation functions run against heap objects: the graph,
the tree, and the dict tables built at startup, plus the global `random`
state. To state the frame property we thread an explicit process state
through each call, translating every heap operation the source performs:
`target_game_id not in game_graph` (read), `game_graph[target]` (read),
`sorted(...)` (allocates a new list), `node.children` / `node.name`
(reads), dict subscripts and `.get` (reads), `rated_games.sort()` (sorts a
local list), and `random.sample` (reads the pool and advances the global
random stream). None of these mutates the graph, the tree, or the tables,
so the translations below return those fields untouched; only the random
stream position moves. -/

structure CoreState where
  graph : Graph
  tree : GTree
  pop_table : List PopRow
  id_to_name : List (Nat × String)
  name_to_id : List (String × Nat)
  id_to_rating : List (Nat × Rat)
  rng : Nat → Nat
  rngPos : Nat

/-- How many numbers `recommend_by_tree_random_high_rating` consumes from
the random stream: `random.sample` runs only in its final branch and draws
`num_random_picks` numbers. -/
def treeDraws (s : CoreState) (genre : String) (picks cutoff : Int) : Nat :=
  let pool := topCandidates s.tree genre s.name_to_id s.id_to_rating cutoff
  if pool.isEmpty then 0
  else if (pool.length : Int) ≤ picks then 0
  else if picks < 0 then 0
  else picks.toNat

/-- `recommend_by_graph` as a state transformer (lines 291-324): pure reads
of the graph and the name dict. -/
def recommend_by_graphS (s : CoreState) (target : Nat) (top_n : Int) :
    (List Nat ⊕ List String) × CoreState :=
  (recommend_by_graph s.graph target top_n (some s.id_to_name), s)

/-- `recommend_by_tree_random_high_rating` as a state transformer (lines
376-433): reads of the tree and the two dicts; `random.sample` advances the
random stream. -/
def recommend_by_treeS (s : CoreState) (genre : String)
    (picks cutoff : Int) : Except String (List String) × CoreState :=
  (recommend_by_tree_random_high_rating s.tree genre s.name_to_id
      s.id_to_rating picks cutoff (fun i => s.rng (s.rngPos + i)),
    { s with rngPos := s.rngPos + treeDraws s genre picks cutoff })

/-- `hybrid_recommendation` as a state transformer (lines 327-373): the two
reads above in sequence; the tree step is the only consumer of the random
stream. -/
def hybrid_recommendationS (s : CoreState) (target : Nat) (genre : String)
    (picks cutoff : Int) : Except String (List String) × CoreState :=
  (hybrid_recommendation s.graph s.tree target genre s.id_to_name
      s.name_to_id s.id_to_rating picks cutoff (fun i => s.rng (s.rngPos + i)),
    { s with rngPos := s.rngPos + treeDraws s genre picks cutoff })

/-! ## Claim C10 -/

/-- C10: recommendation operations are pure reads: each of the three calls
leaves the graph, the genre tree, and the popularity/name/rating tables of
the process state exactly as it found them (only the random stream position
may advance). -/
theorem claim_C10_recommendations_pure_reads (s : CoreState) (target : Nat)
    (genre : String) (n picks cutoff : Int) :
    ((recommend_by_graphS s target n).2.graph = s.graph ∧
      (recommend_by_graphS s target n).2.tree = s.tree ∧
      (recommend_by_graphS s target n).2.pop_table = s.pop_table ∧
      (recommend_by_graphS s target n).2.id_to_name = s.id_to_name ∧
      (recommend_by_graphS s target n).2.name_to_id = s.name_to_id ∧
      (recommend_by_graphS s target n).2.id_to_rating = s.id_to_rating) ∧
    ((recommend_by_treeS s genre picks cutoff).2.graph = s.graph ∧
      (recommend_by_treeS s genre picks cutoff).2.tree = s.tree ∧
      (recommend_by_treeS s genre picks cutoff).2.pop_table = s.pop_table ∧
      (recommend_by_treeS s genre picks cutoff).2.id_to_name =
        s.id_to_name ∧
      (recommend_by_treeS s genre picks cutoff).2.name_to_id =
        s.name_to_id ∧
      (recommend_by_treeS s genre picks cutoff).2.id_to_rating =
        s.id_to_rating) ∧
    ((hybrid_recommendationS s target genre picks cutoff).2.graph =
        s.graph ∧
      (hybrid_recommendationS s target genre picks cutoff).2.tree =
        s.tree ∧
      (hybrid_recommendationS s target genre picks cutoff).2.pop_table =
        s.pop_table ∧
      (hybrid_recommendationS s target genre picks cutoff).2.id_to_name =
        s.id_to_name ∧
      (hybrid_recommendationS s target genre picks cutoff).2.name_to_id =
        s.name_to_id ∧
      (hybrid_recommendationS s target genre picks cutoff).2.id_to_rating =
        s.id_to_rating) :=
  ⟨⟨rfl, rfl, rfl, rfl, rfl, rfl⟩, ⟨rfl, rfl, rfl, rfl, rfl, rfl⟩,
    ⟨rfl, rfl, rfl, rfl, rfl, rfl⟩⟩

end SteamRec
